import Mathlib

/-!
Verification of the neuralmonkey decoder and training loop.

This file embeds the two source files of the repository:

  * src/decoder.py - construction of the decoding computation graph
    (generation logits, the CopyNet combination, scheduled sampling,
    the two unrolled decoder passes and the final cost);
  * src/neuralmonkey/learning_utils.py - the training loop with its
    best-of-N checkpoint ledger, best-score tracking, symlink updates,
    and the KeyboardInterrupt handling around the epoch/batch loop.

Tensors are modelled one batch row at a time: a vocabulary-sized vector is a
function from the (finite) vocabulary index type to the reals, an embedding
row is a function from coordinates to the reals, feature rows are lists of
rationals where only linear algebra happens.  Validation scores are rationals
extended with the two numpy infinities used as sentinels.
-/

namespace NM

/-! ## Embedding of src/decoder.py -/

/-- tf.reduce_max across a python list of same-shaped vocabulary vectors, one
value per vocabulary index (decoder.py line 193, the `maxima` of
`log_sum_exp`).  The source never passes an empty list; the value 0 for it is
arbitrary. -/
noncomputable def reduce_max_list {I : Type} : List (I → ℝ) → I → ℝ
  | [], _ => 0
  | [m], j => m j
  | m :: ms, j => max (m j) (reduce_max_list ms j)

/-- decoder.py `log_sum_exp` (lines 183-194): elementwise
`maxima + tf.log (sum [tf.exp (m - maxima) for m in matrices])`. -/
noncomputable def log_sum_exp {I : Type} (ms : List (I → ℝ)) (j : I) : ℝ :=
  reduce_max_list ms j +
    Real.log ((ms.map (fun m => Real.exp (m j - reduce_max_list ms j))).sum)

/-- One batch row of `tf.matmul(prev_state, decoding_W) + decoding_B`
(decoder.py lines 161 and 200): the previous hidden state is a row vector,
`W` is given as one vocabulary-sized row per state coordinate. -/
noncomputable def generate_logits {I : Type} (prev_state : List ℝ)
    (W : List (I → ℝ)) (B : I → ℝ) (j : I) : ℝ :=
  (List.zipWith (fun s row => s * row j) prev_state W).sum + B j

/-- One batch row of `copy_logits_i = tf.reduce_sum(proj_input * prev_state, [1])`
(decoder.py line 210): the dot product of the projected encoder features at a
source position with the current hidden state. -/
noncomputable def copy_score (proj_input prev_state : List ℝ) : ℝ :=
  (List.zipWith (fun a b => a * b) proj_input prev_state).sum

/-- One batch row of `tf.sparse_to_dense(complete_indices, shape, copy_logits_i)`
(decoder.py lines 211-214): the copy score sits at the vocabulary index of the
source token, every other vocabulary entry holds the default value 0. -/
noncomputable def sparse_to_dense {I : Type} [DecidableEq I]
    (idx : I) (value : ℝ) (j : I) : ℝ :=
  if j = idx then value else 0

/-- The combined logits of decoder.py `copy_net_loop` (lines 196-217): the
generation logits are the first entry of `all_vocabulary_logits`, one
scattered copy-score vector is appended per source position, and the list is
combined with `log_sum_exp`.  A source position is the pair of the vocabulary
index of its token (`slice_indices`) and its projected encoder features
(`proj_input`). -/
noncomputable def copy_net_logits {I : Type} [DecidableEq I]
    (generate : I → ℝ) (prev_state : List ℝ) (sources : List (I × List ℝ)) :
    I → ℝ :=
  log_sum_exp
    (generate :: sources.map (fun s => sparse_to_dense s.1 (copy_score s.2 prev_state)))

/-- One timestep of decoder.py `sampling_loop` (lines 229-238), after the
random draw.  `tf.random_uniform` is called with
`tf.shape(embedded_gt_inputs[0])`, the full batch-by-embedding shape, so `u`
carries one uniform draw per (example, embedding coordinate); `tf.select` then
chooses between the ground-truth embedding and the loop prediction
coordinatewise wherever `u <= threshold`. -/
noncomputable def sampling_select {B E : ℕ} (u : Fin B → Fin E → ℝ)
    (threshold : ℝ) (gt_embedding predicted : Fin B → Fin E → ℝ) :
    Fin B → Fin E → ℝ :=
  fun b e => if u b e ≤ threshold then gt_embedding b e else predicted b e

/-- The scheduled-sampling threshold of decoder.py lines 235-236:
`scheduled_sampling / (scheduled_sampling + exp(learning_step / scheduled_sampling))`. -/
noncomputable def sampling_threshold (k : ℝ) (step : ℕ) : ℝ :=
  k / (k + Real.exp ((step : ℝ) / k))

/-- Modelled from the spec: `seq2seq.rnn_decoder` / `attention_decoder` are
collaborators imported from the TensorFlow library, not files of this
repository.  Spec section 4.3: the core unrolls the recurrent cell over the
inputs strictly sequentially, one hidden state per input, each step depending
only on the previous state and the current input; from the second step on a
loop function, when given, replaces the provided input by one computed from
the previous output. -/
def rnn_decoder_go {E S O : Type} (cell : E → S → O × S)
    (loop_function : Option (O → ℕ → E)) :
    List E → S → Option O → ℕ → List O
  | [], _, _, _ => []
  | inp :: rest, st, prev, i =>
    let actual : E :=
      match loop_function, prev with
      | some f, some p => f p i
      | _, _ => inp
    let step := cell actual st
    step.1 :: rnn_decoder_go cell loop_function rest step.2 (some step.1) (i + 1)

/-- Modelled from the spec (section 4.3), see `rnn_decoder_go`: the unrolled
decoder pass over a list of inputs from an initial state. -/
def rnn_decoder {E S O : Type} (inputs : List E) (initial_state : S)
    (cell : E → S → O × S) (loop_function : Option (O → ℕ → E)) : List O :=
  rnn_decoder_go cell loop_function inputs initial_state none 0

/-- decoder.py lines 120-125: one int32 placeholder per
`i in range(max_out_len + 2)`; the placeholder is modelled by its index. -/
def gt_inputs (max_out_len : ℕ) : List ℕ :=
  List.range (max_out_len + 2)

/-- decoder.py line 127: `self.targets = self.gt_inputs[1:]`. -/
def decoder_targets (max_out_len : ℕ) : List ℕ :=
  (gt_inputs max_out_len).drop 1

/-- decoder.py lines 149-150: the embedding lookup over `gt_inputs[:-1]`. -/
def embedded_gt_inputs {E : Type} (max_out_len : ℕ) (embed : ℕ → E) : List E :=
  ((gt_inputs max_out_len).dropLast).map embed

/-- Python truthiness of the `scheduled_sampling` argument (None or a number
k): `if scheduled_sampling:` at decoder.py lines 245 and 306 is False both for
None and for k = 0. -/
def py_truthy : Option ℚ → Bool
  | none => false
  | some k => decide (k ≠ 0)

/-- decoder.py lines 306-310: the optimization cost, from the sequence loss of
the teacher-forcing pass (`loss_with_gt_ins`) and of the self-feeding pass
(`loss_with_decoded_ins`). -/
def decoder_cost (scheduled_sampling : Option ℚ)
    (loss_with_gt_ins loss_with_decoded_ins : ℚ) : ℚ :=
  if py_truthy scheduled_sampling then loss_with_gt_ins
  else 0.5 * (loss_with_decoded_ins + loss_with_gt_ins)

/-- One batch row of `tf.concat(1, [e.encoded for e in encoders])`
(decoder.py line 105). -/
def concat_encoded (encoders : List (List ℚ)) : List ℚ :=
  encoders.foldr (fun e acc => e ++ acc) []

/-- One batch row of `tf.matmul(x, proj) + proj_bias` with output width
`out_size` (decoder.py line 111): `proj` is given as one output row per input
coordinate. -/
def affine_project (out_size : ℕ) (x : List ℚ) (proj : List (List ℚ))
    (proj_bias : List ℚ) : List ℚ :=
  (List.range out_size).map
    (fun j => (List.zipWith (fun xi row => xi * row.getD j 0) x proj).sum +
      proj_bias.getD j 0)

/-- The result of encoder output fusion: the fused context row and whether the
projection parameters (`proj`, `proj_bias`) were created. -/
structure FusionResult where
  encoded : List ℚ
  projection_created : Bool
deriving DecidableEq

/-- decoder.py lines 100-114: encoder output fusion.  Exactly one encoder
whose output width equals `rnn_size` passes through; at least one encoder
otherwise concatenates, applies dropout (modelled as a given transformation
of the row) and projects, creating the projection parameters; no encoder
yields `tf.zeros(rnn_size)`. -/
def encoder_fusion (rnn_size : ℕ) (encoders : List (List ℚ))
    (dropout : List ℚ → List ℚ) (proj : List (List ℚ)) (proj_bias : List ℚ) :
    FusionResult :=
  if encoders.length = 1 ∧ rnn_size = (encoders.headD []).length then
    { encoded := encoders.headD [], projection_created := false }
  else if 1 ≤ encoders.length then
    { encoded := affine_project rnn_size (dropout (concat_encoded encoders)) proj proj_bias
      projection_created := true }
  else
    { encoded := List.replicate rnn_size 0, projection_created := false }

/-! ## Embedding of src/neuralmonkey/learning_utils.py -/

/-- A validation score as the training loop stores it: a rational score from
an evaluator, or one of the numpy infinities used as initial sentinels
(learning_utils.py lines 119-124).  Modelled as `WithBot (WithTop ℚ)`, whose
bottom is `-np.inf` and whose top is `np.inf`. -/
abbrev Score : Type := WithBot (WithTop ℚ)

/-- A finite (real evaluator) score. -/
def Score.val (q : ℚ) : Score := ((q : WithTop ℚ) : Score)

/-- learning_utils.py lines 178-182: `is_better(score1, score2, minimize)`. -/
def is_better (minimize : Bool) (score1 score2 : Score) : Bool :=
  if minimize then decide (score1 < score2) else decide (score1 > score2)

/-- np.argmax of a list of scores: the first index of the maximum entry
(0 for the empty list, which the source never passes). -/
def np_argmax : List Score → ℕ
  | [] => 0
  | x :: xs => if x < xs.foldr max ⊥ then np_argmax xs + 1 else 0

/-- np.argmin of a list of scores: the first index of the minimum entry
(0 for the empty list, which the source never passes). -/
def np_argmin : List Score → ℕ
  | [] => 0
  | x :: xs => if xs.foldr min ⊤ < x then np_argmin xs + 1 else 0

/-- learning_utils.py lines 184-188: `argworst(scores, minimize)`. -/
def argworst (minimize : Bool) (scores : List Score) : ℕ :=
  if minimize then np_argmax scores else np_argmin scores

/-- The initial sentinel score (learning_utils.py lines 119-124): `np.inf`
when the metric is minimized, `-np.inf` when it is maximized. -/
def sentinel (minimize : Bool) : Score :=
  if minimize then ⊤ else ⊥

/-- The state of the training loop's checkpoint logic.  `savedScores` and
`bestScore` are the variables of learning_utils.py lines 119-124; the other
fields record the externally visible effects: `written` every checkpoint-slot
save so far (in order), `linkTarget` the current target slot of the
best-variables symlink, `writes` one flag per validation event telling whether
a variables file was saved, `bestHistory` the value of `best_score` after
each validation event. -/
structure TrainState where
  savedScores : List Score
  bestScore : Score
  written : List ℕ
  linkTarget : Option ℕ
  writes : List Bool
  bestHistory : List Score
deriving DecidableEq

/-- learning_utils.py lines 110-131: the `save_n_best_vars` scores start at
the sentinel infinities, the parameters are saved to the first variables file
(slot 0), and the best-variables symlink is recreated (unlinked first when it
exists) to point at that file. -/
def init_state (minimize : Bool) (n : ℕ) : TrainState :=
  { savedScores := List.replicate n (sentinel minimize)
    bestScore := sentinel minimize
    written := [0]
    linkTarget := some 0
    writes := []
    bestHistory := [] }

/-- One validation event, learning_utils.py lines 176-210: update of
`best_score`, lookup of the worst retained slot, and - only when the new score
is strictly better than that slot's score - the save into the worst slot and,
when the new score is the (possibly tied) best, the symlink update. -/
def validation_step (minimize : Bool) (st : TrainState) (this_score : ℚ) :
    TrainState :=
  let s := Score.val this_score
  let best := if is_better minimize s st.bestScore then s else st.bestScore
  let worst_index := argworst minimize st.savedScores
  let worst_score := st.savedScores.getD worst_index (sentinel minimize)
  if is_better minimize s worst_score then
    { savedScores := st.savedScores.set worst_index s
      bestScore := best
      written := st.written ++ [worst_index]
      linkTarget := if best = s then some worst_index else st.linkTarget
      writes := st.writes ++ [true]
      bestHistory := st.bestHistory ++ [best] }
  else
    { st with
      bestScore := best
      writes := st.writes ++ [false]
      bestHistory := st.bestHistory ++ [best] }

/-- The checkpoint logic of the whole training run: the initial save and
symlink followed by one `validation_step` per validation score, in order. -/
def run_validations (minimize : Bool) (n : ℕ) (scores : List ℚ) : TrainState :=
  scores.foldl (validation_step minimize) (init_state minimize n)

/-- Scores sorted best-first when the metric is maximized. -/
def sort_desc (l : List Score) : List Score :=
  l.insertionSort (fun a b => a ≥ b)

/-- Scores sorted best-first when the metric is minimized. -/
def sort_asc (l : List Score) : List Score :=
  l.insertionSort (fun a b => a ≤ b)

/-- Scores sorted best-first under the minimize/maximize policy. -/
def rank_sorted (minimize : Bool) (l : List Score) : List Score :=
  if minimize then sort_asc l else sort_desc l

/-- The spec's description of the ledger contents: the `n` best of the scores
seen so far, padded with the sentinel infinities while fewer than `n` have
been seen. -/
def best_n (minimize : Bool) (n : ℕ) (scores : List ℚ) : List Score :=
  (rank_sorted minimize (scores.map Score.val ++ List.replicate n (sentinel minimize))).take n

/-- The best of a list of scores under the policy (the sentinel for the empty
list). -/
def best_of (minimize : Bool) (scores : List Score) : Score :=
  if minimize then scores.foldr min ⊤ else scores.foldr max ⊥

/-- The worst of a list of scores under the policy. -/
def worst_of (minimize : Bool) (scores : List Score) : Score :=
  if minimize then scores.foldr max ⊥ else scores.foldr min ⊤

/-- The events the training loop emits, at batch-step granularity
(learning_utils.py lines 145-284). -/
inductive TrainEvent where
  | batchStep : ℕ → TrainEvent
  | caughtInterrupt : TrainEvent
  | restoreBest : TrainEvent
  | testEval : ℕ → TrainEvent
  | finishLog : TrainEvent
deriving DecidableEq

/-- The optimisation steps the try-block of learning_utils.py lines 146-266
runs when no interruption arrives: `epochs * batches` batch steps, in order. -/
def body_events (epochs batches : ℕ) : List TrainEvent :=
  (List.range (epochs * batches)).map TrainEvent.batchStep

/-- Python `try ... except KeyboardInterrupt` semantics around the
epoch/batch loop (learning_utils.py lines 146-269): an interrupt raised after
`t` completed steps keeps those steps, runs the handler (the log at line 269)
exactly once, and does not re-raise; with no interrupt the body runs whole. -/
def try_body (body : List TrainEvent) : Option ℕ → List TrainEvent
  | none => body
  | some t => body.take t ++ [TrainEvent.caughtInterrupt]

/-- learning_utils.py lines 271-284: after the loop - normal completion or
caught interrupt alike - the best checkpoint is restored when the symlink
exists, then every configured test dataset is evaluated, then the final log. -/
def post_loop_events (link_exists : Bool) (test_datasets : List ℕ) :
    List TrainEvent :=
  (if link_exists then [TrainEvent.restoreBest] else []) ++
    test_datasets.map TrainEvent.testEval ++ [TrainEvent.finishLog]

/-- The whole training loop as an event trace, parameterized by where (if
anywhere) the user interrupt arrives. -/
def training_loop_events (epochs batches : ℕ) (interrupt_at : Option ℕ)
    (link_exists : Bool) (test_datasets : List ℕ) : List TrainEvent :=
  try_body (body_events epochs batches) interrupt_at ++
    post_loop_events link_exists test_datasets

/-! ## Theorems about the decoder graph construction -/

/-- Helper: the unrolled decoder produces exactly one output per input. -/
theorem rnn_decoder_go_length {E S O : Type} (cell : E → S → O × S)
    (loop_function : Option (O → ℕ → E)) (inputs : List E) :
    ∀ (st : S) (prev : Option O) (i : ℕ),
      (rnn_decoder_go cell loop_function inputs st prev i).length = inputs.length := by
  induction inputs with
  | nil => intro st prev i; rfl
  | cons inp rest ih =>
    intro st prev i
    simp only [rnn_decoder_go, List.length_cons]
    rw [ih]

/-- C6: for every configured maximum output length L, the decoder builds
exactly L+2 ground-truth input placeholders, the target sequence has L+1
positions, and both the teacher-forcing pass and the self-feeding pass of the
recurrent core produce exactly L+1 hidden states, for every embedding, cell,
initial (fused encoder) state and loop function - hence independently of the
batch size and of the number of encoders, which only live inside those
abstracted types and values. -/
theorem decoder_unroll_counts {E S O : Type} (L : ℕ) (embed : ℕ → E)
    (encoded : S) (cell : E → S → O × S) (gt_loop : Option (O → ℕ → E))
    (dec_loop : O → ℕ → E) :
    (gt_inputs L).length = L + 2 ∧
    (decoder_targets L).length = L + 1 ∧
    (rnn_decoder (embedded_gt_inputs L embed) encoded cell gt_loop).length = L + 1 ∧
    (rnn_decoder (embedded_gt_inputs L embed) encoded cell (some dec_loop)).length
      = L + 1 := by
  have hemb : (embedded_gt_inputs (E := E) L embed).length = L + 1 := by
    simp [embedded_gt_inputs, gt_inputs]
  refine ⟨by simp [gt_inputs], by simp [decoder_targets, gt_inputs], ?_, ?_⟩ <;>
    (rw [rnn_decoder, rnn_decoder_go_length, hemb])

/-- C7 counterexample: with `scheduled_sampling` configured as the number 0,
the cost is the averaged loss, not the teacher-forcing loss alone (Python
truthiness makes `if scheduled_sampling:` False for 0). -/
theorem decoder_cost_zero_k_counterexample :
    decoder_cost (some 0) 0 1 = 0.5 * (1 + 0) ∧ decoder_cost (some 0) 0 1 ≠ 0 := by
  constructor
  · simp [decoder_cost, py_truthy]
  · simp [decoder_cost, py_truthy]
    norm_num

/-- C7 (amended): the objective is the teacher-forcing-pass loss alone
whenever scheduled sampling is configured with a nonzero decay parameter, and
0.5 times the sum of the two pass losses when it is not configured. -/
theorem decoder_cost_cases (k lgt ldec : ℚ) (hk : k ≠ 0) :
    decoder_cost (some k) lgt ldec = lgt ∧
    decoder_cost none lgt ldec = 0.5 * (ldec + lgt) := by
  simp [decoder_cost, py_truthy, hk]

/-- Witness for `decoder_cost_cases` at k = 1, losses 2 and 3. -/
theorem decoder_cost_cases_witness :
    (1 : ℚ) ≠ 0 ∧
    (decoder_cost (some 1) 2 3 = 2 ∧ decoder_cost none 2 3 = 0.5 * (3 + 2)) :=
  ⟨one_ne_zero, decoder_cost_cases 1 2 3 one_ne_zero⟩

/-- C1: at the concrete input with one source position mapping to vocabulary
index 0, zero generation logits and copy score 1 * 1 = 1, the combined logit
at the UNMAPPED vocabulary index 1 is log 2, not the generation logit 0: the
`tf.sparse_to_dense` default 0 at unmapped indices contributes exp 0 = 1 to
the exponential-domain sum instead of nothing.  With no source positions the
combination does reduce exactly to the generation logits (last conjunct), so
the copy-augmented step then coincides with the greedy step. -/
theorem copy_net_unmapped_vocabulary_bug :
    copy_net_logits (generate_logits [1] [fun _ => (0 : ℝ)] (fun _ => 0)) [1]
        [((0 : Fin 2), [1])] (1 : Fin 2) = Real.log 2 ∧
    generate_logits (I := Fin 2) [1] [fun _ => (0 : ℝ)] (fun _ => 0) 1 = 0 ∧
    Real.log 2 ≠ 0 ∧
    (∀ (g : Fin 2 → ℝ) (prev : List ℝ) (j : Fin 2),
      copy_net_logits g prev [] j = g j) := by
  have hg : generate_logits (I := Fin 2) [1] [fun _ => (0 : ℝ)] (fun _ => 0) 1 = 0 := by
    simp [generate_logits]
  have hlog : Real.log 2 ≠ 0 := by
    have := Real.log_pos (by norm_num : (1 : ℝ) < 2)
    linarith
  refine ⟨?_, hg, hlog, ?_⟩
  · simp [copy_net_logits, log_sum_exp, reduce_max_list, sparse_to_dense,
      copy_score, generate_logits, Real.exp_zero]
    norm_num
  · intro g prev j
    simp [copy_net_logits, log_sum_exp, reduce_max_list, Real.exp_zero]

/-- C2: at the concrete input with batch size 1, embedding width 2, threshold
1/2, per-coordinate draws (0, 1), ground-truth embedding row (0, 0) and
predicted embedding row (1, 1), the produced row is (0, 1): coordinate 0 comes
from the ground truth and coordinate 1 from the prediction, so the row is a
per-coordinate mixture, equal to neither the ground-truth row nor the
predicted row. -/
theorem sampling_mixes_embedding_coordinates_bug :
    sampling_select (B := 1) (E := 2) (fun _ e => (e.val : ℝ)) (1 / 2)
        (fun _ _ => 0) (fun _ _ => 1) 0 0 = 0 ∧
    sampling_select (B := 1) (E := 2) (fun _ e => (e.val : ℝ)) (1 / 2)
        (fun _ _ => 0) (fun _ _ => 1) 0 1 = 1 ∧
    sampling_select (B := 1) (E := 2) (fun _ e => (e.val : ℝ)) (1 / 2)
        (fun _ _ => 0) (fun _ _ => 1) 0 ≠ (fun _ => (0 : ℝ)) ∧
    sampling_select (B := 1) (E := 2) (fun _ e => (e.val : ℝ)) (1 / 2)
        (fun _ _ => 0) (fun _ _ => 1) 0 ≠ (fun _ => (1 : ℝ)) := by
  have h0 : sampling_select (B := 1) (E := 2) (fun _ e => (e.val : ℝ)) (1 / 2)
      (fun _ _ => 0) (fun _ _ => 1) 0 0 = 0 := by
    norm_num [sampling_select]
  have h1 : sampling_select (B := 1) (E := 2) (fun _ e => (e.val : ℝ)) (1 / 2)
      (fun _ _ => 0) (fun _ _ => 1) 0 1 = 1 := by
    norm_num [sampling_select]
  refine ⟨h0, h1, fun hcon => ?_, fun hcon => ?_⟩
  · have := congrFun hcon 1
    rw [h1] at this
    norm_num at this
  · have := congrFun hcon 0
    rw [h0] at this
    norm_num at this

/-- C5: for every decay parameter k > 0 the scheduled-sampling threshold
k / (k + exp(step / k)) is non-increasing in the step counter and tends to 0
as the step counter tends to infinity. -/
theorem sampling_threshold_decay (k : ℝ) (hk : 0 < k) :
    (∀ step : ℕ, sampling_threshold k (step + 1) ≤ sampling_threshold k step) ∧
    Filter.Tendsto (sampling_threshold k) Filter.atTop (nhds 0) := by
  constructor
  · intro s
    have hcast : ((s + 1 : ℕ) : ℝ) = (s : ℝ) + 1 := by push_cast; ring
    rw [sampling_threshold, sampling_threshold, hcast]
    have hexp : Real.exp ((s : ℝ) / k) ≤ Real.exp (((s : ℝ) + 1) / k) := by
      apply Real.exp_le_exp.mpr
      apply div_le_div_of_nonneg_right (by linarith) (le_of_lt hk)
    have hden : (0 : ℝ) < k + Real.exp ((s : ℝ) / k) := by positivity
    apply div_le_div_of_nonneg_left (le_of_lt hk) hden
    linarith
  · have h1 : Filter.Tendsto (fun s : ℕ => (s : ℝ) / k) Filter.atTop Filter.atTop :=
      Filter.Tendsto.atTop_div_const hk tendsto_natCast_atTop_atTop
    have h2 : Filter.Tendsto (fun s : ℕ => k + Real.exp ((s : ℝ) / k))
        Filter.atTop Filter.atTop :=
      Filter.tendsto_atTop_add_const_left _ k (Real.tendsto_exp_atTop.comp h1)
    exact Filter.Tendsto.div_atTop tendsto_const_nhds h2

/-- Witness for `sampling_threshold_decay` at k = 1. -/
theorem sampling_threshold_decay_witness :
    (0 : ℝ) < 1 ∧
    ((∀ step : ℕ, sampling_threshold 1 (step + 1) ≤ sampling_threshold 1 step) ∧
      Filter.Tendsto (sampling_threshold 1) Filter.atTop (nhds 0)) :=
  ⟨one_pos, sampling_threshold_decay 1 one_pos⟩

/-- C8: encoder output fusion.  With zero encoders the fused context is the
all-zero row of width rnn_size and no projection parameters are created; with
exactly one encoder whose width equals rnn_size the encoder output passes
through unchanged with no parameters; in every other case (one encoder of a
different width, or at least two encoders) the concatenated, dropout-treated
row is affinely projected and the projection parameters are created. -/
theorem encoder_fusion_cases (rnn_size : ℕ) (dropout : List ℚ → List ℚ)
    (proj : List (List ℚ)) (proj_bias : List ℚ) (e : List ℚ)
    (encoders : List (List ℚ)) (h1 : e.length = rnn_size)
    (h2 : 2 ≤ encoders.length) :
    (encoder_fusion rnn_size [] dropout proj proj_bias).encoded
        = List.replicate rnn_size 0 ∧
    (encoder_fusion rnn_size [] dropout proj proj_bias).encoded.length = rnn_size ∧
    (∀ x ∈ (encoder_fusion rnn_size [] dropout proj proj_bias).encoded, x = 0) ∧
    (encoder_fusion rnn_size [] dropout proj proj_bias).projection_created = false ∧
    encoder_fusion rnn_size [e] dropout proj proj_bias
        = { encoded := e, projection_created := false } ∧
    encoder_fusion rnn_size encoders dropout proj proj_bias
        = { encoded := affine_project rnn_size (dropout (concat_encoded encoders))
              proj proj_bias
            projection_created := true } ∧
    (∀ e2 : List ℚ, e2.length ≠ rnn_size →
      encoder_fusion rnn_size [e2] dropout proj proj_bias
        = { encoded := affine_project rnn_size (dropout (concat_encoded [e2]))
              proj proj_bias
            projection_created := true }) := by
  refine ⟨?_, ?_, ?_, ?_, ?_, ?_, ?_⟩
  · simp [encoder_fusion]
  · simp [encoder_fusion]
  · intro x hx
    rw [encoder_fusion] at hx
    simp at hx
    exact hx.2
  · simp [encoder_fusion]
  · rw [encoder_fusion, if_pos ⟨rfl, by simp [h1]⟩]
    simp
  · rw [encoder_fusion, if_neg (by omega), if_pos (by omega)]
  · intro e2 he2
    rw [encoder_fusion, if_neg (by simp; omega), if_pos (by simp)]

/-- Witness for `encoder_fusion_cases`: rnn_size 1, identity dropout, empty
projection parameters, the matching encoder row [5] and the encoder list
[[1],[2]]. -/
theorem encoder_fusion_cases_witness :
    ([(5 : ℚ)].length = 1 ∧ 2 ≤ ([[(1 : ℚ)], [2]] : List (List ℚ)).length) ∧
    ((encoder_fusion 1 [] id [] []).encoded = List.replicate 1 0 ∧
    (encoder_fusion 1 [] id [] []).encoded.length = 1 ∧
    (∀ x ∈ (encoder_fusion 1 [] id [] []).encoded, x = 0) ∧
    (encoder_fusion 1 [] id [] []).projection_created = false ∧
    encoder_fusion 1 [[5]] id [] []
        = { encoded := [5], projection_created := false } ∧
    encoder_fusion 1 [[1], [2]] id [] []
        = { encoded := affine_project 1 (id (concat_encoded [[1], [2]])) [] []
            projection_created := true } ∧
    (∀ e2 : List ℚ, e2.length ≠ 1 →
      encoder_fusion 1 [e2] id [] []
        = { encoded := affine_project 1 (id (concat_encoded [e2])) [] []
            projection_created := true })) :=
  ⟨⟨rfl, by norm_num⟩,
    encoder_fusion_cases 1 id [] [] [5] [[1], [2]] rfl (by norm_num)⟩

/-! ## Theorems about the training loop -/

/-- Helper: batch-step events are never the caught-interrupt event. -/
theorem count_caught_in_batch_steps (l : List ℕ) :
    (l.map TrainEvent.batchStep).count TrainEvent.caughtInterrupt = 0 := by
  rw [List.count_eq_zero]
  intro h
  obtain ⟨i, _, hi⟩ := List.mem_map.mp h
  exact TrainEvent.noConfusion hi

/-- Helper: the post-loop events contain no caught-interrupt event. -/
theorem count_caught_in_post_loop (link_exists : Bool) (test_datasets : List ℕ) :
    (post_loop_events link_exists test_datasets).count TrainEvent.caughtInterrupt
      = 0 := by
  rw [List.count_eq_zero, post_loop_events]
  intro h
  simp at h

/-- C9: a user interrupt raised after t completed batch steps (anywhere inside
the epoch/batch loop) is caught exactly once and not re-raised: the trace is
the completed steps, one caught-interrupt handler event, and then exactly the
same post-loop events (restore from the best-pointer when the link exists,
then evaluation of every configured test dataset) that a normal, uninterrupted
run performs after its full body. -/
theorem interrupt_caught_once_graceful (epochs batches t : ℕ)
    (link_exists : Bool) (test_datasets : List ℕ)
    (ht : t ≤ epochs * batches) :
    training_loop_events epochs batches (some t) link_exists test_datasets
        = (List.range t).map TrainEvent.batchStep ++
          ([TrainEvent.caughtInterrupt] ++ post_loop_events link_exists test_datasets) ∧
    (training_loop_events epochs batches (some t) link_exists
        test_datasets).count TrainEvent.caughtInterrupt = 1 ∧
    training_loop_events epochs batches none link_exists test_datasets
        = body_events epochs batches ++ post_loop_events link_exists test_datasets ∧
    (training_loop_events epochs batches none link_exists
        test_datasets).count TrainEvent.caughtInterrupt = 0 := by
  have hbody : (body_events epochs batches).take t
      = (List.range t).map TrainEvent.batchStep := by
    rw [body_events, ← List.map_take, List.take_range, Nat.min_eq_left ht]
  have htrace : training_loop_events epochs batches (some t) link_exists test_datasets
      = (List.range t).map TrainEvent.batchStep ++
        ([TrainEvent.caughtInterrupt] ++ post_loop_events link_exists test_datasets) := by
    rw [training_loop_events, try_body, hbody, List.append_assoc]
  refine ⟨htrace, ?_, rfl, ?_⟩
  · rw [htrace]
    simp [List.count_append, count_caught_in_batch_steps,
      count_caught_in_post_loop]
  · rw [training_loop_events, try_body, List.count_append,
      count_caught_in_post_loop, body_events, count_caught_in_batch_steps]

/-- Witness for `interrupt_caught_once_graceful`: one epoch of two batches,
interrupted after the first step, with the link present and one test set. -/
theorem interrupt_caught_once_graceful_witness :
    1 ≤ 1 * 2 ∧
    (training_loop_events 1 2 (some 1) true [0]
        = (List.range 1).map TrainEvent.batchStep ++
          ([TrainEvent.caughtInterrupt] ++ post_loop_events true [0]) ∧
    (training_loop_events 1 2 (some 1) true [0]).count
        TrainEvent.caughtInterrupt = 1 ∧
    training_loop_events 1 2 none true [0]
        = body_events 1 2 ++ post_loop_events true [0] ∧
    (training_loop_events 1 2 none true [0]).count
        TrainEvent.caughtInterrupt = 0) :=
  ⟨by norm_num, interrupt_caught_once_graceful 1 2 1 true [0] (by norm_num)⟩

/-- Helper for C10: one validation step preserves the invariant that the
best-variables symlink points at a slot that has been saved. -/
theorem validation_step_link_invariant (minimize : Bool) (st : TrainState)
    (q : ℚ) (h : ∃ t, st.linkTarget = some t ∧ t ∈ st.written) :
    ∃ t, (validation_step minimize st q).linkTarget = some t ∧
      t ∈ (validation_step minimize st q).written := by
  obtain ⟨t, hl, hw⟩ := h
  simp only [validation_step]
  repeat' split
  all_goals first
    | exact ⟨t, hl, hw⟩
    | exact ⟨_, rfl, by simp⟩
    | exact ⟨t, hl, by simp [hw]⟩

/-- Helper for C10: the invariant survives any sequence of validation steps. -/
theorem foldl_link_invariant (minimize : Bool) (l : List ℚ) (st : TrainState)
    (h : ∃ t, st.linkTarget = some t ∧ t ∈ st.written) :
    ∃ t, (l.foldl (validation_step minimize) st).linkTarget = some t ∧
      t ∈ (l.foldl (validation_step minimize) st).written := by
  induction l generalizing st with
  | nil => exact h
  | cons a l ih =>
    exact ih _ (validation_step_link_invariant minimize st a h)

/-- C10: before any validation runs, the first checkpoint file (slot 0) has
been saved and the best-variables symlink points at it; and after every
number k of validation events - in particular at an interruption before the
first validation - the symlink exists and references a checkpoint slot that
has been written. -/
theorem best_link_references_written_checkpoint (minimize : Bool) (n : ℕ)
    (scores : List ℚ) :
    (run_validations minimize n []).linkTarget = some 0 ∧
    (run_validations minimize n []).written = [0] ∧
    (∀ k : ℕ, ∃ t : ℕ,
      (run_validations minimize n (scores.take k)).linkTarget = some t ∧
        t ∈ (run_validations minimize n (scores.take k)).written) := by
  refine ⟨rfl, rfl, fun k => ?_⟩
  exact foldl_link_invariant minimize (scores.take k) (init_state minimize n)
    ⟨0, rfl, by simp [init_state]⟩

/-- C4: with one best-checkpoint slot and a maximized metric, the validation
score sequence 0.2, 0.5, 0.3, 0.7 produces the best-ever sequence
0.2, 0.5, 0.5, 0.7, and the checkpoint file is written exactly at validations
1, 2 and 4 (validation 3 does not beat the retained 0.5, so no write). -/
theorem checkpoint_scenario_best_of_one :
    (run_validations false 1 [1/5, 1/2, 3/10, 7/10]).bestHistory
        = [Score.val (1/5), Score.val (1/2), Score.val (1/2), Score.val (7/10)] ∧
    (run_validations false 1 [1/5, 1/2, 3/10, 7/10]).writes
        = [true, true, false, true] := by
  norm_num [run_validations, validation_step, init_state, is_better, argworst,
    np_argmin, np_argmax, sentinel, Score.val, List.foldl, decide_eq_true_eq]

/-! ## Helper lemmas for the checkpoint-ledger invariant (C3) -/

/-- The min-fold of a score list bounds every member from below. -/
theorem foldr_min_le_of_mem {b : Score} {l : List Score} (h : b ∈ l) :
    l.foldr min ⊤ ≤ b := by
  induction l with
  | nil => cases h
  | cons a l ih =>
    rcases List.mem_cons.mp h with rfl | h
    · exact min_le_left _ _
    · exact le_trans (min_le_right _ _) (ih h)

/-- The max-fold of a score list bounds every member from above. -/
theorem le_foldr_max_of_mem {b : Score} {l : List Score} (h : b ∈ l) :
    b ≤ l.foldr max ⊥ := by
  induction l with
  | nil => cases h
  | cons a l ih =>
    rcases List.mem_cons.mp h with rfl | h
    · exact le_max_left _ _
    · exact le_trans (ih h) (le_max_right _ _)

/-- The min-fold of a nonempty score list is one of its members. -/
theorem foldr_min_mem {l : List Score} (h : l ≠ []) : l.foldr min ⊤ ∈ l := by
  induction l with
  | nil => exact absurd rfl h
  | cons a l ih =>
    rcases eq_or_ne l [] with rfl | hl
    · simp
    · rw [List.foldr_cons]
      rcases min_choice a (l.foldr min ⊤) with hc | hc <;> rw [hc]
      · exact List.mem_cons_self _ _
      · exact List.mem_cons_of_mem _ (ih hl)

/-- The max-fold of a nonempty score list is one of its members. -/
theorem foldr_max_mem {l : List Score} (h : l ≠ []) : l.foldr max ⊥ ∈ l := by
  induction l with
  | nil => exact absurd rfl h
  | cons a l ih =>
    rcases eq_or_ne l [] with rfl | hl
    · simp
    · rw [List.foldr_cons]
      rcases max_choice a (l.foldr max ⊥) with hc | hc <;> rw [hc]
      · exact List.mem_cons_self _ _
      · exact List.mem_cons_of_mem _ (ih hl)

/-- Min-folds only grow when the list of members grows. -/
theorem foldr_min_le_foldr_min {l₁ l₂ : List Score} (h : ∀ b ∈ l₁, b ∈ l₂) :
    l₂.foldr min ⊤ ≤ l₁.foldr min ⊤ := by
  induction l₁ with
  | nil => simp
  | cons a l ih =>
    rw [List.foldr_cons, le_min_iff]
    exact ⟨foldr_min_le_of_mem (h a (List.mem_cons_self a l)),
      ih fun b hb => h b (List.mem_cons_of_mem a hb)⟩

/-- Max-folds only grow when the list of members grows. -/
theorem foldr_max_le_foldr_max {l₁ l₂ : List Score} (h : ∀ b ∈ l₁, b ∈ l₂) :
    l₁.foldr max ⊥ ≤ l₂.foldr max ⊥ := by
  induction l₁ with
  | nil => simp
  | cons a l ih =>
    rw [List.foldr_cons, max_le_iff]
    exact ⟨le_foldr_max_of_mem (h a (List.mem_cons_self a l)),
      ih fun b hb => h b (List.mem_cons_of_mem a hb)⟩

/-- A min-fold with any seed equals the min of the seed with the ⊤-seeded fold. -/
theorem foldr_min_seed (b : Score) (l : List Score) :
    l.foldr min b = min (l.foldr min ⊤) b := by
  induction l with
  | nil => simp
  | cons a l ih => rw [List.foldr_cons, List.foldr_cons, ih, min_assoc]

/-- A max-fold with any seed equals the max of the seed with the ⊥-seeded fold. -/
theorem foldr_max_seed (b : Score) (l : List Score) :
    l.foldr max b = max (l.foldr max ⊥) b := by
  induction l with
  | nil => simp
  | cons a l ih => rw [List.foldr_cons, List.foldr_cons, ih, max_assoc]

/-- Erasing a value that occurs in the tail commutes with consing a head. -/
theorem erase_cons_of_mem {α : Type} [DecidableEq α] {a v : α} {M : Multiset α}
    (h : v ∈ M) : (a ::ₘ M).erase v = a ::ₘ M.erase v := by
  by_cases hav : a = v
  · subst hav
    rw [Multiset.erase_cons_head]
    exact (Multiset.cons_erase h).symm
  · exact Multiset.erase_cons_tail M hav

/-- Setting an in-bounds position is, as a multiset, replacing that position's
current value. -/
theorem coe_set_eq {α : Type} [DecidableEq α] :
    ∀ (l : List α) (i : ℕ), i < l.length → ∀ (x d : α),
      ((l.set i x : List α) : Multiset α) = x ::ₘ ((l : Multiset α).erase (l.getD i d))
  | [], i, hi => by simp at hi
  | a :: l, 0, _ => by
    intro x d
    simp [List.set]
  | a :: l, j + 1, hi => by
    intro x d
    have hj : j < l.length := by simpa using hi
    have hv : l.getD j d ∈ l := by
      rw [List.getD_eq_getElem l d hj]
      exact List.getElem_mem hj
    calc ((((a :: l).set (j + 1) x) : List α) : Multiset α)
        = a ::ₘ ((l.set j x : List α) : Multiset α) := by
          rw [List.set_cons_succ, Multiset.cons_coe]
      _ = a ::ₘ (x ::ₘ ((l : Multiset α).erase (l.getD j d))) := by
          rw [coe_set_eq l j hj x d]
      _ = x ::ₘ (a ::ₘ ((l : Multiset α).erase (l.getD j d))) := Multiset.cons_swap _ _ _
      _ = x ::ₘ ((a ::ₘ (l : Multiset α)).erase (l.getD j d)) := by
          rw [erase_cons_of_mem hv]
      _ = x ::ₘ (((a :: l : List α) : Multiset α).erase ((a :: l).getD (j + 1) d)) := by
          rw [Multiset.cons_coe, List.getD_cons_succ]

/-- np.argmin lands in bounds and reads off the minimum of the list. -/
theorem np_argmin_spec :
    ∀ (l : List Score), l ≠ [] →
      np_argmin l < l.length ∧ ∀ d, l.getD (np_argmin l) d = l.foldr min ⊤
  | [], h => absurd rfl h
  | a :: l, _ => by
    rw [np_argmin]
    by_cases hc : l.foldr min ⊤ < a
    · rw [if_pos hc]
      have hlne : l ≠ [] := by
        intro h
        subst h
        exact absurd hc (by simp)
      obtain ⟨h1, h2⟩ := np_argmin_spec l hlne
      refine ⟨by simpa using Nat.succ_lt_succ h1, fun d => ?_⟩
      rw [List.getD_cons_succ, h2 d, List.foldr_cons, min_eq_right (le_of_lt hc)]
    · rw [if_neg hc]
      refine ⟨Nat.succ_pos _, fun d => ?_⟩
      rw [List.getD_cons_zero, List.foldr_cons, min_eq_left (not_lt.mp hc)]

/-- np.argmax lands in bounds and reads off the maximum of the list. -/
theorem np_argmax_spec :
    ∀ (l : List Score), l ≠ [] →
      np_argmax l < l.length ∧ ∀ d, l.getD (np_argmax l) d = l.foldr max ⊥
  | [], h => absurd rfl h
  | a :: l, _ => by
    rw [np_argmax]
    by_cases hc : a < l.foldr max ⊥
    · rw [if_pos hc]
      have hlne : l ≠ [] := by
        intro h
        subst h
        exact absurd hc (by simp)
      obtain ⟨h1, h2⟩ := np_argmax_spec l hlne
      refine ⟨by simpa using Nat.succ_lt_succ h1, fun d => ?_⟩
      rw [List.getD_cons_succ, h2 d, List.foldr_cons, max_eq_right (le_of_lt hc)]
    · rw [if_neg hc]
      refine ⟨Nat.succ_pos _, fun d => ?_⟩
      rw [List.getD_cons_zero, List.foldr_cons, max_eq_left (not_lt.mp hc)]

/-- In a best-first (descending) sorted list the min is the last element. -/
theorem sorted_ge_foldr_min_getLast :
    ∀ {l : List Score}, List.Sorted (fun a b => a ≥ b) l → (h : l ≠ []) →
      l.foldr min ⊤ = l.getLast h
  | [], _, h => absurd rfl h
  | a :: l, hs, _ => by
    rcases eq_or_ne l [] with rfl | hl
    · simp
    · have hyall := (List.sorted_cons.mp hs).1
      have ih := sorted_ge_foldr_min_getLast (List.sorted_cons.mp hs).2 hl
      rw [List.foldr_cons, List.getLast_cons hl, ih,
        min_eq_right (hyall _ (ih ▸ foldr_min_mem hl))]

/-- In a worst-first-free (ascending) sorted list the max is the last element. -/
theorem sorted_le_foldr_max_getLast :
    ∀ {l : List Score}, List.Sorted (fun a b => a ≤ b) l → (h : l ≠ []) →
      l.foldr max ⊥ = l.getLast h
  | [], _, h => absurd rfl h
  | a :: l, hs, _ => by
    rcases eq_or_ne l [] with rfl | hl
    · simp
    · have hyall := (List.sorted_cons.mp hs).1
      have ih := sorted_le_foldr_max_getLast (List.sorted_cons.mp hs).2 hl
      rw [List.foldr_cons, List.getLast_cons hl, ih,
        max_eq_right (hyall _ (ih ▸ foldr_max_mem hl))]

/-- The best-first descending sort is sorted. -/
theorem sort_desc_sorted (l : List Score) :
    List.Sorted (fun a b => a ≥ b) (sort_desc l) :=
  List.sorted_insertionSort _ l

/-- The best-first descending sort permutes its input. -/
theorem sort_desc_perm (l : List Score) : (sort_desc l).Perm l :=
  List.perm_insertionSort _ l

/-- The descending sort depends only on the multiset of entries. -/
theorem sort_desc_congr {l₁ l₂ : List Score} (h : l₁.Perm l₂) :
    sort_desc l₁ = sort_desc l₂ :=
  List.eq_of_perm_of_sorted
    ((sort_desc_perm l₁).trans (h.trans (sort_desc_perm l₂).symm))
    (sort_desc_sorted l₁) (sort_desc_sorted l₂)

/-- Sorting a freshly consed element is an ordered insertion. -/
theorem sort_desc_cons (x : Score) (l : List Score) :
    sort_desc (x :: l) = List.orderedInsert (fun a b => a ≥ b) x (sort_desc l) :=
  rfl

/-- The best-first ascending sort is sorted. -/
theorem sort_asc_sorted (l : List Score) :
    List.Sorted (fun a b => a ≤ b) (sort_asc l) :=
  List.sorted_insertionSort _ l

/-- The best-first ascending sort permutes its input. -/
theorem sort_asc_perm (l : List Score) : (sort_asc l).Perm l :=
  List.perm_insertionSort _ l

/-- The ascending sort depends only on the multiset of entries. -/
theorem sort_asc_congr {l₁ l₂ : List Score} (h : l₁.Perm l₂) :
    sort_asc l₁ = sort_asc l₂ :=
  List.eq_of_perm_of_sorted
    ((sort_asc_perm l₁).trans (h.trans (sort_asc_perm l₂).symm))
    (sort_asc_sorted l₁) (sort_asc_sorted l₂)

/-- Sorting a freshly consed element is an ordered insertion. -/
theorem sort_asc_cons (x : Score) (l : List Score) :
    sort_asc (x :: l) = List.orderedInsert (fun a b => a ≤ b) x (sort_asc l) :=
  rfl

/-- Key combinatorial step, maximize flavor: inserting a new score into a
descending-sorted list and keeping the first n entries replaces the minimum of
the former first n entries exactly when the new score strictly beats it. -/
theorem take_orderedInsert_desc :
    ∀ (L : List Score) (n : ℕ) (x : Score),
      List.Sorted (fun a b => a ≥ b) L → n ≤ L.length →
      (((List.orderedInsert (fun a b => a ≥ b) x L).take n : List Score) : Multiset Score)
        = if (L.take n).foldr min ⊤ < x
          then x ::ₘ (((L.take n : List Score) : Multiset Score).erase
            ((L.take n).foldr min ⊤))
          else ((L.take n : List Score) : Multiset Score)
  | [], n, x, _, hn => by
    have hn0 : n = 0 := Nat.le_zero.mp hn
    subst hn0
    simp [List.orderedInsert]
  | y :: ys, n, x, hs, hn => by
    cases n with
    | zero => simp
    | succ k =>
      have hk : k ≤ ys.length := by simpa using hn
      have hsys := (List.sorted_cons.mp hs).2
      have hyall := (List.sorted_cons.mp hs).1
      rw [List.orderedInsert]
      simp only [List.take_succ_cons]
      by_cases hxy : x ≥ y
      · rw [if_pos hxy]
        simp only [List.take_succ_cons]
        have hTne : y :: ys.take k ≠ [] := by simp
        have hTsorted : List.Sorted (fun a b => a ≥ b) (y :: ys.take k) := by
          rw [List.sorted_cons]
          exact ⟨fun b hb => hyall b (List.take_subset k ys hb),
            List.Pairwise.sublist (List.take_sublist k ys) hsys⟩
        have hmlast : (y :: ys.take k).foldr min ⊤ = (y :: ys.take k).getLast hTne :=
          sorted_ge_foldr_min_getLast hTsorted hTne
        have hdrop : (y :: ys.take k).dropLast = (y :: ys).take k := by
          rw [List.dropLast_eq_take]
          have hlen : (y :: ys.take k).length = k + 1 := by
            simp [Nat.min_eq_left hk]
          rw [hlen]
          simp only [Nat.add_sub_cancel]
          rw [show (y :: ys.take k) = (y :: ys).take (k + 1) by simp,
            List.take_take, Nat.min_eq_left (Nat.le_succ k)]
        have hsplit : ((y :: ys.take k : List Score) : Multiset Score)
            = ((y :: ys.take k).foldr min ⊤) ::ₘ (((y :: ys).take k : List Score) : Multiset Score) := by
          conv_lhs => rw [← List.dropLast_append_getLast hTne]
          rw [hdrop, ← hmlast, Multiset.cons_coe, Multiset.coe_eq_coe]
          exact List.perm_append_singleton _ _
        by_cases hmx : (y :: ys.take k).foldr min ⊤ < x
        · rw [if_pos hmx, hsplit, Multiset.erase_cons_head, ← Multiset.cons_coe]
        · rw [if_neg hmx]
          have hxm : x ≤ (y :: ys.take k).foldr min ⊤ := not_lt.mp hmx
          have hmy : (y :: ys.take k).foldr min ⊤ ≤ y :=
            foldr_min_le_of_mem (List.mem_cons_self _ _)
          have hxeq : x = y := le_antisymm (hxm.trans hmy) hxy
          have hally : ∀ b ∈ y :: ys.take k, b = y := by
            intro b hb
            rcases List.mem_cons.mp hb with rfl | hb2
            · rfl
            · have hb_le : b ≤ y := hyall b (List.take_subset k ys hb2)
              have hb_ge : (y :: ys.take k).foldr min ⊤ ≤ b := foldr_min_le_of_mem hb
              have : y ≤ b := by
                calc y = x := hxeq.symm
                  _ ≤ _ := hxm
                  _ ≤ b := hb_ge
              exact le_antisymm hb_le this
          have hAy : ∀ b ∈ (y :: ys).take k, b = y := by
            intro b hb
            apply hally
            have : (y :: ys).take k = (y :: ys.take k).take k := by
              rw [show (y :: ys.take k) = (y :: ys).take (k + 1) by simp,
                List.take_take, Nat.min_eq_left (Nat.le_succ k)]
            rw [this] at hb
            exact List.take_subset k _ hb
          have hArep : (y :: ys).take k = List.replicate ((y :: ys).take k).length y :=
            List.eq_replicate_of_mem hAy
          have hTrep : y :: ys.take k = List.replicate (y :: ys.take k).length y :=
            List.eq_replicate_of_mem hally
          have hAlen : ((y :: ys).take k).length = k := by
            simp [Nat.min_eq_left (Nat.le_succ_of_le hk)]
          have hTlen : (y :: ys.take k).length = k + 1 := by
            simp [Nat.min_eq_left hk]
          rw [Multiset.coe_eq_coe.mpr]
          rw [hxeq, hArep, hAlen, hTrep, hTlen]
          rfl
      · rw [if_neg hxy]
        have hyx : x < y := not_le.mp hxy
        simp only [List.take_succ_cons]
        rcases Nat.eq_zero_or_pos k with rfl | hkpos
        · simp [not_lt.mpr (le_of_lt hyx)]
        · have hysne : ys ≠ [] := by
            intro h
            subst h
            simp at hk
            omega
          have htkne : ys.take k ≠ [] := by
            rw [Ne, List.take_eq_nil_iff]
            push_neg
            exact ⟨by omega, hysne⟩
          have hm'y : (ys.take k).foldr min ⊤ ≤ y :=
            hyall _ (List.take_subset k ys (foldr_min_mem htkne))
          have hm : (y :: ys.take k).foldr min ⊤ = (ys.take k).foldr min ⊤ := by
            rw [List.foldr_cons, min_eq_right hm'y]
          have ih := take_orderedInsert_desc ys k x hsys hk
          rw [hm]
          by_cases hx : (ys.take k).foldr min ⊤ < x
          · rw [if_pos hx] at ih
            rw [if_pos hx, ← Multiset.cons_coe, ih, ← Multiset.cons_coe,
              erase_cons_of_mem (by
                rw [Multiset.mem_coe]
                exact foldr_min_mem htkne)]
            exact Multiset.cons_swap _ _ _
          · rw [if_neg hx] at ih
            rw [if_neg hx, ← Multiset.cons_coe, ih, Multiset.cons_coe]

/-- Key combinatorial step, minimize flavor: inserting a new score into an
ascending-sorted list and keeping the first n entries replaces the maximum of
the former first n entries exactly when the new score strictly beats it. -/
theorem take_orderedInsert_asc :
    ∀ (L : List Score) (n : ℕ) (x : Score),
      List.Sorted (fun a b => a ≤ b) L → n ≤ L.length →
      (((List.orderedInsert (fun a b => a ≤ b) x L).take n : List Score) : Multiset Score)
        = if x < (L.take n).foldr max ⊥
          then x ::ₘ (((L.take n : List Score) : Multiset Score).erase
            ((L.take n).foldr max ⊥))
          else ((L.take n : List Score) : Multiset Score)
  | [], n, x, _, hn => by
    have hn0 : n = 0 := Nat.le_zero.mp hn
    subst hn0
    simp [List.orderedInsert]
  | y :: ys, n, x, hs, hn => by
    cases n with
    | zero => simp
    | succ k =>
      have hk : k ≤ ys.length := by simpa using hn
      have hsys := (List.sorted_cons.mp hs).2
      have hyall := (List.sorted_cons.mp hs).1
      rw [List.orderedInsert]
      simp only [List.take_succ_cons]
      by_cases hxy : x ≤ y
      · rw [if_pos hxy]
        simp only [List.take_succ_cons]
        have hTne : y :: ys.take k ≠ [] := by simp
        have hTsorted : List.Sorted (fun a b => a ≤ b) (y :: ys.take k) := by
          rw [List.sorted_cons]
          exact ⟨fun b hb => hyall b (List.take_subset k ys hb),
            List.Pairwise.sublist (List.take_sublist k ys) hsys⟩
        have hmlast : (y :: ys.take k).foldr max ⊥ = (y :: ys.take k).getLast hTne :=
          sorted_le_foldr_max_getLast hTsorted hTne
        have hdrop : (y :: ys.take k).dropLast = (y :: ys).take k := by
          rw [List.dropLast_eq_take]
          have hlen : (y :: ys.take k).length = k + 1 := by
            simp [Nat.min_eq_left hk]
          rw [hlen]
          simp only [Nat.add_sub_cancel]
          rw [show (y :: ys.take k) = (y :: ys).take (k + 1) by simp,
            List.take_take, Nat.min_eq_left (Nat.le_succ k)]
        have hsplit : ((y :: ys.take k : List Score) : Multiset Score)
            = ((y :: ys.take k).foldr max ⊥) ::ₘ (((y :: ys).take k : List Score) : Multiset Score) := by
          conv_lhs => rw [← List.dropLast_append_getLast hTne]
          rw [hdrop, ← hmlast, Multiset.cons_coe, Multiset.coe_eq_coe]
          exact List.perm_append_singleton _ _
        by_cases hmx : x < (y :: ys.take k).foldr max ⊥
        · rw [if_pos hmx, hsplit, Multiset.erase_cons_head, ← Multiset.cons_coe]
        · rw [if_neg hmx]
          have hxm : (y :: ys.take k).foldr max ⊥ ≤ x := not_lt.mp hmx
          have hmy : y ≤ (y :: ys.take k).foldr max ⊥ :=
            le_foldr_max_of_mem (List.mem_cons_self _ _)
          have hxeq : x = y := le_antisymm hxy (hmy.trans hxm)
          have hally : ∀ b ∈ y :: ys.take k, b = y := by
            intro b hb
            rcases List.mem_cons.mp hb with rfl | hb2
            · rfl
            · have hb_ge : y ≤ b := hyall b (List.take_subset k ys hb2)
              have hb_le : b ≤ (y :: ys.take k).foldr max ⊥ := le_foldr_max_of_mem hb
              have : b ≤ y := by
                calc b ≤ (y :: ys.take k).foldr max ⊥ := hb_le
                  _ ≤ x := hxm
                  _ = y := hxeq
              exact le_antisymm this hb_ge
          have hAy : ∀ b ∈ (y :: ys).take k, b = y := by
            intro b hb
            apply hally
            have : (y :: ys).take k = (y :: ys.take k).take k := by
              rw [show (y :: ys.take k) = (y :: ys).take (k + 1) by simp,
                List.take_take, Nat.min_eq_left (Nat.le_succ k)]
            rw [this] at hb
            exact List.take_subset k _ hb
          have hArep : (y :: ys).take k = List.replicate ((y :: ys).take k).length y :=
            List.eq_replicate_of_mem hAy
          have hTrep : y :: ys.take k = List.replicate (y :: ys.take k).length y :=
            List.eq_replicate_of_mem hally
          have hAlen : ((y :: ys).take k).length = k := by
            simp [Nat.min_eq_left (Nat.le_succ_of_le hk)]
          have hTlen : (y :: ys.take k).length = k + 1 := by
            simp [Nat.min_eq_left hk]
          rw [Multiset.coe_eq_coe.mpr]
          rw [hxeq, hArep, hAlen, hTrep, hTlen]
          rfl
      · rw [if_neg hxy]
        have hyx : y < x := not_le.mp hxy
        simp only [List.take_succ_cons]
        rcases Nat.eq_zero_or_pos k with rfl | hkpos
        · simp [not_lt.mpr (le_of_lt hyx)]
        · have hysne : ys ≠ [] := by
            intro h
            subst h
            simp at hk
            omega
          have htkne : ys.take k ≠ [] := by
            rw [Ne, List.take_eq_nil_iff]
            push_neg
            exact ⟨by omega, hysne⟩
          have hm'y : y ≤ (ys.take k).foldr max ⊥ :=
            hyall _ (List.take_subset k ys (foldr_max_mem htkne))
          have hm : (y :: ys.take k).foldr max ⊥ = (ys.take k).foldr max ⊥ := by
            rw [List.foldr_cons, max_eq_right hm'y]
          have ih := take_orderedInsert_asc ys k x hsys hk
          rw [hm]
          by_cases hx : x < (ys.take k).foldr max ⊥
          · rw [if_pos hx] at ih
            rw [if_pos hx, ← Multiset.cons_coe, ih, ← Multiset.cons_coe,
              erase_cons_of_mem (by
                rw [Multiset.mem_coe]
                exact foldr_max_mem htkne)]
            exact Multiset.cons_swap _ _ _
          · rw [if_neg hx] at ih
            rw [if_neg hx, ← Multiset.cons_coe, ih, Multiset.cons_coe]

/-- Min-folds only depend on the multiset of entries. -/
theorem foldr_min_perm {l₁ l₂ : List Score} (h : l₁.Perm l₂) :
    l₁.foldr min ⊤ = l₂.foldr min ⊤ :=
  h.foldr_eq ⊤

/-- Max-folds only depend on the multiset of entries. -/
theorem foldr_max_perm {l₁ l₂ : List Score} (h : l₁.Perm l₂) :
    l₁.foldr max ⊥ = l₂.foldr max ⊥ :=
  h.foldr_eq ⊥

/-- The maximize-policy ledger spec unfolded. -/
theorem best_n_false (n : ℕ) (scores : List ℚ) :
    best_n false n scores
      = (sort_desc (scores.map Score.val ++ List.replicate n ⊥)).take n :=
  rfl

/-- The minimize-policy ledger spec unfolded. -/
theorem best_n_true (n : ℕ) (scores : List ℚ) :
    best_n true n scores
      = (sort_asc (scores.map Score.val ++ List.replicate n ⊤)).take n :=
  rfl

/-- Appending one maximize-policy score to the seen scores updates the spec
ledger by replacing its worst entry exactly when the new score beats it. -/
theorem best_n_concat_false (n : ℕ) (scores : List ℚ) (q : ℚ) :
    ((best_n false n (scores ++ [q]) : List Score) : Multiset Score)
      = if worst_of false (best_n false n scores) < Score.val q
        then Score.val q ::ₘ
          (((best_n false n scores : List Score) : Multiset Score)).erase
            (worst_of false (best_n false n scores))
        else ((best_n false n scores : List Score) : Multiset Score) := by
  have hperm : ((scores ++ [q]).map Score.val ++ List.replicate n ⊥).Perm
      (Score.val q :: (scores.map Score.val ++ List.replicate n ⊥)) := by
    rw [List.map_append, List.append_assoc]
    simp only [List.map_cons, List.map_nil, List.singleton_append]
    exact List.perm_middle
  have hlen : n ≤ (sort_desc (scores.map Score.val ++ List.replicate n ⊥)).length := by
    rw [(sort_desc_perm _).length_eq]
    simp
  rw [best_n_false, best_n_false, sort_desc_congr hperm, sort_desc_cons,
    take_orderedInsert_desc _ n (Score.val q) (sort_desc_sorted _) hlen]
  rfl

/-- Appending one minimize-policy score to the seen scores updates the spec
ledger by replacing its worst entry exactly when the new score beats it. -/
theorem best_n_concat_true (n : ℕ) (scores : List ℚ) (q : ℚ) :
    ((best_n true n (scores ++ [q]) : List Score) : Multiset Score)
      = if Score.val q < worst_of true (best_n true n scores)
        then Score.val q ::ₘ
          (((best_n true n scores : List Score) : Multiset Score)).erase
            (worst_of true (best_n true n scores))
        else ((best_n true n scores : List Score) : Multiset Score) := by
  have hperm : ((scores ++ [q]).map Score.val ++ List.replicate n ⊤).Perm
      (Score.val q :: (scores.map Score.val ++ List.replicate n ⊤)) := by
    rw [List.map_append, List.append_assoc]
    simp only [List.map_cons, List.map_nil, List.singleton_append]
    exact List.perm_middle
  have hlen : n ≤ (sort_asc (scores.map Score.val ++ List.replicate n ⊤)).length := by
    rw [(sort_asc_perm _).length_eq]
    simp
  rw [best_n_true, best_n_true, sort_asc_congr hperm, sort_asc_cons,
    take_orderedInsert_asc _ n (Score.val q) (sort_asc_sorted _) hlen]
  rfl

/-- Appending a maximize-policy score to the seen list updates the running
best exactly as the code's conditional does. -/
theorem best_of_false_concat (l : List Score) (s : Score) :
    best_of false (l ++ [s])
      = if is_better false s (best_of false l) = true then s
        else best_of false l := by
  show (l ++ [s]).foldr max ⊥ = if is_better false s (l.foldr max ⊥) = true then s
    else l.foldr max ⊥
  rw [List.foldr_append, List.foldr_cons, List.foldr_nil, foldr_max_seed]
  have hib : is_better false s (l.foldr max ⊥) = decide (l.foldr max ⊥ < s) := rfl
  rw [hib]
  by_cases hc : l.foldr max ⊥ < s
  · simp [hc, max_eq_right (le_of_lt hc), max_eq_left (bot_le : (⊥ : Score) ≤ s)]
  · simp [hc, max_eq_left (bot_le : (⊥ : Score) ≤ s), max_eq_left (not_lt.mp hc)]

/-- Appending a minimize-policy score to the seen list updates the running
best exactly as the code's conditional does. -/
theorem best_of_true_concat (l : List Score) (s : Score) :
    best_of true (l ++ [s])
      = if is_better true s (best_of true l) = true then s
        else best_of true l := by
  show (l ++ [s]).foldr min ⊤ = if is_better true s (l.foldr min ⊤) = true then s
    else l.foldr min ⊤
  rw [List.foldr_append, List.foldr_cons, List.foldr_nil, foldr_min_seed]
  have hib : is_better true s (l.foldr min ⊤) = decide (s < l.foldr min ⊤) := rfl
  rw [hib]
  by_cases hc : s < l.foldr min ⊤
  · simp [hc, min_eq_right (le_of_lt hc), min_eq_left (le_top : s ≤ (⊤ : Score))]
  · simp [hc, min_eq_left (le_top : s ≤ (⊤ : Score)), min_eq_left (not_lt.mp hc)]

/-- One validation step with the lets of the source spelled out. -/
theorem validation_step_eq (minimize : Bool) (st : TrainState) (q : ℚ) :
    validation_step minimize st q =
      if is_better minimize (Score.val q)
          (st.savedScores.getD (argworst minimize st.savedScores) (sentinel minimize)) then
        { savedScores := st.savedScores.set (argworst minimize st.savedScores) (Score.val q)
          bestScore := if is_better minimize (Score.val q) st.bestScore then Score.val q
            else st.bestScore
          written := st.written ++ [argworst minimize st.savedScores]
          linkTarget := if (if is_better minimize (Score.val q) st.bestScore then Score.val q
              else st.bestScore) = Score.val q
            then some (argworst minimize st.savedScores) else st.linkTarget
          writes := st.writes ++ [true]
          bestHistory := st.bestHistory ++
            [if is_better minimize (Score.val q) st.bestScore then Score.val q
              else st.bestScore] }
      else
        { st with
          bestScore := if is_better minimize (Score.val q) st.bestScore then Score.val q
            else st.bestScore
          writes := st.writes ++ [false]
          bestHistory := st.bestHistory ++
            [if is_better minimize (Score.val q) st.bestScore then Score.val q
              else st.bestScore] } :=
  rfl

/-- Peeling the last validation event off a run. -/
theorem run_validations_concat (minimize : Bool) (n : ℕ) (scores : List ℚ) (q : ℚ) :
    run_validations minimize n (scores ++ [q])
      = validation_step minimize (run_validations minimize n scores) q := by
  rw [run_validations, run_validations, List.foldl_concat]

/-- A constant list is sorted descending. -/
theorem sorted_ge_replicate (n : ℕ) (a : Score) :
    List.Sorted (fun x y => x ≥ y) (List.replicate n a) := by
  induction n with
  | zero => simp
  | succ m ih =>
    rw [List.replicate_succ, List.sorted_cons]
    exact ⟨fun b hb => le_of_eq (List.eq_of_mem_replicate hb), ih⟩

/-- A constant list is sorted ascending. -/
theorem sorted_le_replicate (n : ℕ) (a : Score) :
    List.Sorted (fun x y => x ≤ y) (List.replicate n a) := by
  induction n with
  | zero => simp
  | succ m ih =>
    rw [List.replicate_succ, List.sorted_cons]
    exact ⟨fun b hb => ge_of_eq (List.eq_of_mem_replicate hb), ih⟩

/-- The last entry of a one-element extension. -/
theorem getD_concat_self {α : Type} (l : List α) (a d : α) :
    (l ++ [a]).getD l.length d = a := by
  rw [List.getD_eq_getElem _ d (by simp)]
  exact List.getElem_concat_length l a l.length rfl _

/-- Splitting the map over an extended range. -/
theorem range_map_concat {β : Type} (m : ℕ) (g : ℕ → β) :
    (List.range (m + 1)).map g = (List.range m).map g ++ [g m] := by
  rw [List.range_succ, List.map_append, List.map_cons, List.map_nil]

/-- The checkpoint-ledger invariant for the maximize policy: at every moment
the ledger holds the n best scores seen padded with -inf sentinels, the best
score equals the best seen, a variables file is written exactly when the new
score strictly beats the worst retained entry, and the best-score history
records the running best of each prefix. -/
theorem run_invariant_max (n : ℕ) (hn : 1 ≤ n) (scores : List ℚ) :
    (run_validations false n scores).savedScores.length = n ∧
    ((run_validations false n scores).savedScores : Multiset Score)
        = ((best_n false n scores : List Score) : Multiset Score) ∧
    (run_validations false n scores).bestScore = best_of false (scores.map Score.val) ∧
    (run_validations false n scores).writes
        = (List.range scores.length).map (fun i =>
            is_better false (Score.val (scores.getD i 0))
              (worst_of false (best_n false n (scores.take i)))) ∧
    (run_validations false n scores).bestHistory
        = (List.range scores.length).map (fun i =>
            best_of false ((scores.take (i + 1)).map Score.val)) := by
  induction scores using List.reverseRecOn with
  | nil =>
    have hsort : sort_desc (List.replicate n (⊥ : Score)) = List.replicate n ⊥ :=
      List.eq_of_perm_of_sorted (sort_desc_perm _) (sort_desc_sorted _)
        (sorted_ge_replicate n ⊥)
    have hbn : best_n false n [] = List.replicate n (⊥ : Score) := by
      rw [best_n_false]
      simp only [List.map_nil, List.nil_append]
      rw [hsort, List.take_replicate, Nat.min_self]
    refine ⟨by simp [run_validations, init_state], ?_,
      by simp [run_validations, init_state, best_of, sentinel],
      by simp [run_validations, init_state],
      by simp [run_validations, init_state]⟩
    rw [hbn]
    simp [run_validations, init_state, sentinel]
  | append_singleton scores q ih =>
    obtain ⟨ihA, ihB, ihC, ihD, ihE⟩ := ih
    rw [run_validations_concat]
    have hne : (run_validations false n scores).savedScores ≠ [] := by
      intro h
      rw [h] at ihA
      simp at ihA
      omega
    obtain ⟨hwi_lt, hwi_val⟩ := np_argmin_spec (run_validations false n scores).savedScores hne
    have hpermledger : (run_validations false n scores).savedScores.Perm
        (best_n false n scores) := Multiset.coe_eq_coe.mp ihB
    have hworst : (run_validations false n scores).savedScores.getD
        (argworst false (run_validations false n scores).savedScores) (sentinel false)
        = worst_of false (best_n false n scores) := by
      show (run_validations false n scores).savedScores.getD
        (np_argmin (run_validations false n scores).savedScores) (sentinel false)
        = worst_of false (best_n false n scores)
      rw [hwi_val, foldr_min_perm hpermledger]
      rfl
    have hbest_concat : best_of false ((scores ++ [q]).map Score.val)
        = if is_better false (Score.val q) (run_validations false n scores).bestScore = true
          then Score.val q else (run_validations false n scores).bestScore := by
      rw [List.map_append, List.map_cons, List.map_nil, best_of_false_concat, ihC]
    have hlen_append : (scores ++ [q]).length = scores.length + 1 := by simp
    have hDprefix : (List.range scores.length).map (fun i =>
        is_better false (Score.val ((scores ++ [q]).getD i 0))
          (worst_of false (best_n false n ((scores ++ [q]).take i))))
        = (List.range scores.length).map (fun i =>
        is_better false (Score.val (scores.getD i 0))
          (worst_of false (best_n false n (scores.take i)))) := by
      apply List.map_congr_left
      intro i hi
      have hi' : i < scores.length := List.mem_range.mp hi
      rw [List.getD_append _ _ _ _ hi', List.take_append_of_le_length (le_of_lt hi')]
    have hEprefix : (List.range scores.length).map (fun i =>
        best_of false (((scores ++ [q]).take (i + 1)).map Score.val))
        = (List.range scores.length).map (fun i =>
        best_of false ((scores.take (i + 1)).map Score.val)) := by
      apply List.map_congr_left
      intro i hi
      have hi' : i < scores.length := List.mem_range.mp hi
      rw [List.take_append_of_le_length (Nat.succ_le_of_lt hi')]
    have hlast_getD : (scores ++ [q]).getD scores.length 0 = q := getD_concat_self _ _ _
    have hlast_take : (scores ++ [q]).take scores.length = scores := List.take_left _ _
    have hfull_take : (scores ++ [q]).take (scores.length + 1) = scores ++ [q] := by
      rw [← hlen_append, List.take_length]
    rw [validation_step_eq]
    by_cases hbeat : worst_of false (best_n false n scores) < Score.val q
    · have hcond : is_better false (Score.val q)
          ((run_validations false n scores).savedScores.getD
            (argworst false (run_validations false n scores).savedScores)
            (sentinel false)) = true := by
        rw [hworst]
        exact decide_eq_true hbeat
      rw [if_pos hcond]
      refine ⟨?_, ?_, ?_, ?_, ?_⟩
      · simp [List.length_set, ihA]
      · show ((run_validations false n scores).savedScores.set
            (np_argmin (run_validations false n scores).savedScores)
            (Score.val q) : Multiset Score)
          = ((best_n false n (scores ++ [q]) : List Score) : Multiset Score)
        rw [coe_set_eq _ _ hwi_lt (Score.val q) (sentinel false)]
        rw [show ((run_validations false n scores).savedScores.getD
            (np_argmin (run_validations false n scores).savedScores) (sentinel false))
          = worst_of false (best_n false n scores) from hworst]
        rw [ihB, best_n_concat_false, if_pos hbeat]
      · show (if is_better false (Score.val q) (run_validations false n scores).bestScore
            then Score.val q else (run_validations false n scores).bestScore)
          = best_of false ((scores ++ [q]).map Score.val)
        rw [hbest_concat]
      · show (run_validations false n scores).writes ++ [true]
          = (List.range (scores ++ [q]).length).map (fun i =>
              is_better false (Score.val ((scores ++ [q]).getD i 0))
                (worst_of false (best_n false n ((scores ++ [q]).take i))))
        rw [hlen_append, range_map_concat, hDprefix, ihD, hlast_getD, hlast_take]
        have hflag : is_better false (Score.val q)
            (worst_of false (best_n false n scores)) = true := decide_eq_true hbeat
        rw [hflag]
      · show (run_validations false n scores).bestHistory ++
            [if is_better false (Score.val q) (run_validations false n scores).bestScore
              then Score.val q else (run_validations false n scores).bestScore]
          = (List.range (scores ++ [q]).length).map (fun i =>
              best_of false (((scores ++ [q]).take (i + 1)).map Score.val))
        rw [hlen_append, range_map_concat, hEprefix, ihE, hfull_take, hbest_concat]
    · have hcond : ¬ (is_better false (Score.val q)
          ((run_validations false n scores).savedScores.getD
            (argworst false (run_validations false n scores).savedScores)
            (sentinel false)) = true) := by
        rw [hworst]
        exact fun hcontra => hbeat (of_decide_eq_true hcontra)
      rw [if_neg hcond]
      refine ⟨ihA, ?_, ?_, ?_, ?_⟩
      · show ((run_validations false n scores).savedScores : Multiset Score)
          = ((best_n false n (scores ++ [q]) : List Score) : Multiset Score)
        rw [ihB, best_n_concat_false, if_neg hbeat]
      · show (if is_better false (Score.val q) (run_validations false n scores).bestScore
            then Score.val q else (run_validations false n scores).bestScore)
          = best_of false ((scores ++ [q]).map Score.val)
        rw [hbest_concat]
      · show (run_validations false n scores).writes ++ [false]
          = (List.range (scores ++ [q]).length).map (fun i =>
              is_better false (Score.val ((scores ++ [q]).getD i 0))
                (worst_of false (best_n false n ((scores ++ [q]).take i))))
        rw [hlen_append, range_map_concat, hDprefix, ihD, hlast_getD, hlast_take]
        have hflag : is_better false (Score.val q)
            (worst_of false (best_n false n scores)) = false := decide_eq_false hbeat
        rw [hflag]
      · show (run_validations false n scores).bestHistory ++
            [if is_better false (Score.val q) (run_validations false n scores).bestScore
              then Score.val q else (run_validations false n scores).bestScore]
          = (List.range (scores ++ [q]).length).map (fun i =>
              best_of false (((scores ++ [q]).take (i + 1)).map Score.val))
        rw [hlen_append, range_map_concat, hEprefix, ihE, hfull_take, hbest_concat]

/-- The checkpoint-ledger invariant for the minimize policy: at every moment
the ledger holds the n best (smallest) scores seen padded with +inf sentinels,
the best score equals the best seen, a variables file is written exactly when
the new score strictly beats the worst retained entry, and the best-score
history records the running best of each prefix. -/
theorem run_invariant_min (n : ℕ) (hn : 1 ≤ n) (scores : List ℚ) :
    (run_validations true n scores).savedScores.length = n ∧
    ((run_validations true n scores).savedScores : Multiset Score)
        = ((best_n true n scores : List Score) : Multiset Score) ∧
    (run_validations true n scores).bestScore = best_of true (scores.map Score.val) ∧
    (run_validations true n scores).writes
        = (List.range scores.length).map (fun i =>
            is_better true (Score.val (scores.getD i 0))
              (worst_of true (best_n true n (scores.take i)))) ∧
    (run_validations true n scores).bestHistory
        = (List.range scores.length).map (fun i =>
            best_of true ((scores.take (i + 1)).map Score.val)) := by
  induction scores using List.reverseRecOn with
  | nil =>
    have hsort : sort_asc (List.replicate n (⊤ : Score)) = List.replicate n ⊤ :=
      List.eq_of_perm_of_sorted (sort_asc_perm _) (sort_asc_sorted _)
        (sorted_le_replicate n ⊤)
    have hbn : best_n true n [] = List.replicate n (⊤ : Score) := by
      rw [best_n_true]
      simp only [List.map_nil, List.nil_append]
      rw [hsort, List.take_replicate, Nat.min_self]
    refine ⟨by simp [run_validations, init_state], ?_,
      by simp [run_validations, init_state, best_of, sentinel],
      by simp [run_validations, init_state],
      by simp [run_validations, init_state]⟩
    rw [hbn]
    simp [run_validations, init_state, sentinel]
  | append_singleton scores q ih =>
    obtain ⟨ihA, ihB, ihC, ihD, ihE⟩ := ih
    rw [run_validations_concat]
    have hne : (run_validations true n scores).savedScores ≠ [] := by
      intro h
      rw [h] at ihA
      simp at ihA
      omega
    obtain ⟨hwi_lt, hwi_val⟩ := np_argmax_spec (run_validations true n scores).savedScores hne
    have hpermledger : (run_validations true n scores).savedScores.Perm
        (best_n true n scores) := Multiset.coe_eq_coe.mp ihB
    have hworst : (run_validations true n scores).savedScores.getD
        (argworst true (run_validations true n scores).savedScores) (sentinel true)
        = worst_of true (best_n true n scores) := by
      show (run_validations true n scores).savedScores.getD
        (np_argmax (run_validations true n scores).savedScores) (sentinel true)
        = worst_of true (best_n true n scores)
      rw [hwi_val, foldr_max_perm hpermledger]
      rfl
    have hbest_concat : best_of true ((scores ++ [q]).map Score.val)
        = if is_better true (Score.val q) (run_validations true n scores).bestScore = true
          then Score.val q else (run_validations true n scores).bestScore := by
      rw [List.map_append, List.map_cons, List.map_nil, best_of_true_concat, ihC]
    have hlen_append : (scores ++ [q]).length = scores.length + 1 := by simp
    have hDprefix : (List.range scores.length).map (fun i =>
        is_better true (Score.val ((scores ++ [q]).getD i 0))
          (worst_of true (best_n true n ((scores ++ [q]).take i))))
        = (List.range scores.length).map (fun i =>
        is_better true (Score.val (scores.getD i 0))
          (worst_of true (best_n true n (scores.take i)))) := by
      apply List.map_congr_left
      intro i hi
      have hi' : i < scores.length := List.mem_range.mp hi
      rw [List.getD_append _ _ _ _ hi', List.take_append_of_le_length (le_of_lt hi')]
    have hEprefix : (List.range scores.length).map (fun i =>
        best_of true (((scores ++ [q]).take (i + 1)).map Score.val))
        = (List.range scores.length).map (fun i =>
        best_of true ((scores.take (i + 1)).map Score.val)) := by
      apply List.map_congr_left
      intro i hi
      have hi' : i < scores.length := List.mem_range.mp hi
      rw [List.take_append_of_le_length (Nat.succ_le_of_lt hi')]
    have hlast_getD : (scores ++ [q]).getD scores.length 0 = q := getD_concat_self _ _ _
    have hlast_take : (scores ++ [q]).take scores.length = scores := List.take_left _ _
    have hfull_take : (scores ++ [q]).take (scores.length + 1) = scores ++ [q] := by
      rw [← hlen_append, List.take_length]
    rw [validation_step_eq]
    by_cases hbeat : Score.val q < worst_of true (best_n true n scores)
    · have hcond : is_better true (Score.val q)
          ((run_validations true n scores).savedScores.getD
            (argworst true (run_validations true n scores).savedScores)
            (sentinel true)) = true := by
        rw [hworst]
        exact decide_eq_true hbeat
      rw [if_pos hcond]
      refine ⟨?_, ?_, ?_, ?_, ?_⟩
      · simp [List.length_set, ihA]
      · show ((run_validations true n scores).savedScores.set
            (np_argmax (run_validations true n scores).savedScores)
            (Score.val q) : Multiset Score)
          = ((best_n true n (scores ++ [q]) : List Score) : Multiset Score)
        rw [coe_set_eq _ _ hwi_lt (Score.val q) (sentinel true)]
        rw [show ((run_validations true n scores).savedScores.getD
            (np_argmax (run_validations true n scores).savedScores) (sentinel true))
          = worst_of true (best_n true n scores) from hworst]
        rw [ihB, best_n_concat_true, if_pos hbeat]
      · show (if is_better true (Score.val q) (run_validations true n scores).bestScore
            then Score.val q else (run_validations true n scores).bestScore)
          = best_of true ((scores ++ [q]).map Score.val)
        rw [hbest_concat]
      · show (run_validations true n scores).writes ++ [true]
          = (List.range (scores ++ [q]).length).map (fun i =>
              is_better true (Score.val ((scores ++ [q]).getD i 0))
                (worst_of true (best_n true n ((scores ++ [q]).take i))))
        rw [hlen_append, range_map_concat, hDprefix, ihD, hlast_getD, hlast_take]
        have hflag : is_better true (Score.val q)
            (worst_of true (best_n true n scores)) = true := decide_eq_true hbeat
        rw [hflag]
      · show (run_validations true n scores).bestHistory ++
            [if is_better true (Score.val q) (run_validations true n scores).bestScore
              then Score.val q else (run_validations true n scores).bestScore]
          = (List.range (scores ++ [q]).length).map (fun i =>
              best_of true (((scores ++ [q]).take (i + 1)).map Score.val))
        rw [hlen_append, range_map_concat, hEprefix, ihE, hfull_take, hbest_concat]
    · have hcond : ¬ (is_better true (Score.val q)
          ((run_validations true n scores).savedScores.getD
            (argworst true (run_validations true n scores).savedScores)
            (sentinel true)) = true) := by
        rw [hworst]
        exact fun hcontra => hbeat (of_decide_eq_true hcontra)
      rw [if_neg hcond]
      refine ⟨ihA, ?_, ?_, ?_, ?_⟩
      · show ((run_validations true n scores).savedScores : Multiset Score)
          = ((best_n true n (scores ++ [q]) : List Score) : Multiset Score)
        rw [ihB, best_n_concat_true, if_neg hbeat]
      · show (if is_better true (Score.val q) (run_validations true n scores).bestScore
            then Score.val q else (run_validations true n scores).bestScore)
          = best_of true ((scores ++ [q]).map Score.val)
        rw [hbest_concat]
      · show (run_validations true n scores).writes ++ [false]
          = (List.range (scores ++ [q]).length).map (fun i =>
              is_better true (Score.val ((scores ++ [q]).getD i 0))
                (worst_of true (best_n true n ((scores ++ [q]).take i))))
        rw [hlen_append, range_map_concat, hDprefix, ihD, hlast_getD, hlast_take]
        have hflag : is_better true (Score.val q)
            (worst_of true (best_n true n scores)) = false := decide_eq_false hbeat
        rw [hflag]
      · show (run_validations true n scores).bestHistory ++
            [if is_better true (Score.val q) (run_validations true n scores).bestScore
              then Score.val q else (run_validations true n scores).bestScore]
          = (List.range (scores ++ [q]).length).map (fun i =>
              best_of true (((scores ++ [q]).take (i + 1)).map Score.val))
        rw [hlen_append, range_map_concat, hEprefix, ihE, hfull_take, hbest_concat]

/-- Reading a mapped range off by index. -/
theorem getD_range_map {β : Type} (m i : ℕ) (g : ℕ → β) (d : β) (hi : i < m) :
    ((List.range m).map g).getD i d = g i := by
  rw [List.getD_eq_getElem _ d (by simpa using hi)]
  simp

/-- The maximize-policy running best over prefixes never decreases. -/
theorem best_of_false_prefix_mono (scores : List ℚ) {i j : ℕ} (hij : i ≤ j) :
    best_of false ((scores.take (i + 1)).map Score.val)
      ≤ best_of false ((scores.take (j + 1)).map Score.val) := by
  show ((scores.take (i + 1)).map Score.val).foldr max ⊥
    ≤ ((scores.take (j + 1)).map Score.val).foldr max ⊥
  apply foldr_max_le_foldr_max
  intro b hb
  obtain ⟨a, ha, rfl⟩ := List.mem_map.mp hb
  refine List.mem_map.mpr ⟨a, ?_, rfl⟩
  have h1 : scores.take (i + 1) = (scores.take (j + 1)).take (i + 1) := by
    rw [List.take_take, Nat.min_eq_left (by omega)]
  rw [h1] at ha
  exact List.take_subset _ _ ha

/-- The minimize-policy running best over prefixes never increases. -/
theorem best_of_true_prefix_mono (scores : List ℚ) {i j : ℕ} (hij : i ≤ j) :
    best_of true ((scores.take (j + 1)).map Score.val)
      ≤ best_of true ((scores.take (i + 1)).map Score.val) := by
  show ((scores.take (j + 1)).map Score.val).foldr min ⊤
    ≤ ((scores.take (i + 1)).map Score.val).foldr min ⊤
  apply foldr_min_le_foldr_min
  intro b hb
  obtain ⟨a, ha, rfl⟩ := List.mem_map.mp hb
  refine List.mem_map.mpr ⟨a, ?_, rfl⟩
  have h1 : scores.take (i + 1) = (scores.take (j + 1)).take (i + 1) := by
    rw [List.take_take, Nat.min_eq_left (by omega)]
  rw [h1] at ha
  exact List.take_subset _ _ ha

/-- C3: for every policy and every capacity n >= 1, after any validation score
sequence the saved-scores ledger holds exactly the n best scores seen so far
padded with the policy's infinity sentinels (as a multiset), the tracked best
score equals the best score seen so far, a checkpoint slot is written exactly
when the new score strictly beats the worst retained entry (the worst of the
n best seen before it), and the best-score history equals the running best of
each prefix and never regresses. -/
theorem checkpoint_ledger_invariant (minimize : Bool) (n : ℕ) (scores : List ℚ)
    (hn : 1 ≤ n) :
    ((run_validations minimize n scores).savedScores : Multiset Score)
        = ((best_n minimize n scores : List Score) : Multiset Score) ∧
    (run_validations minimize n scores).bestScore
        = best_of minimize (scores.map Score.val) ∧
    (run_validations minimize n scores).writes
        = (List.range scores.length).map (fun i =>
            is_better minimize (Score.val (scores.getD i 0))
              (worst_of minimize (best_n minimize n (scores.take i)))) ∧
    (run_validations minimize n scores).bestHistory
        = (List.range scores.length).map (fun i =>
            best_of minimize ((scores.take (i + 1)).map Score.val)) ∧
    (∀ i j : ℕ, i ≤ j → j < scores.length →
      is_better minimize
        ((run_validations minimize n scores).bestHistory.getD i (sentinel minimize))
        ((run_validations minimize n scores).bestHistory.getD j (sentinel minimize))
        = false) := by
  cases minimize with
  | false =>
    obtain ⟨_, hB, hC, hD, hE⟩ := run_invariant_max n hn scores
    refine ⟨hB, hC, hD, hE, ?_⟩
    intro i j hij hj
    rw [hE, getD_range_map _ _ _ _ (lt_of_le_of_lt hij hj), getD_range_map _ _ _ _ hj]
    exact decide_eq_false (not_lt.mpr (best_of_false_prefix_mono scores hij))
  | true =>
    obtain ⟨_, hB, hC, hD, hE⟩ := run_invariant_min n hn scores
    refine ⟨hB, hC, hD, hE, ?_⟩
    intro i j hij hj
    rw [hE, getD_range_map _ _ _ _ (lt_of_le_of_lt hij hj), getD_range_map _ _ _ _ hj]
    exact decide_eq_false (not_lt.mpr (best_of_true_prefix_mono scores hij))

/-- Witness for `checkpoint_ledger_invariant`: maximize policy, one slot, the
score sequence 1, 2. -/
theorem checkpoint_ledger_invariant_witness :
    1 ≤ 1 ∧
    (((run_validations false 1 [1, 2]).savedScores : Multiset Score)
        = ((best_n false 1 [1, 2] : List Score) : Multiset Score) ∧
    (run_validations false 1 [1, 2]).bestScore
        = best_of false (([1, 2] : List ℚ).map Score.val) ∧
    (run_validations false 1 [1, 2]).writes
        = (List.range ([1, 2] : List ℚ).length).map (fun i =>
            is_better false (Score.val (([1, 2] : List ℚ).getD i 0))
              (worst_of false (best_n false 1 (([1, 2] : List ℚ).take i)))) ∧
    (run_validations false 1 [1, 2]).bestHistory
        = (List.range ([1, 2] : List ℚ).length).map (fun i =>
            best_of false ((([1, 2] : List ℚ).take (i + 1)).map Score.val)) ∧
    (∀ i j : ℕ, i ≤ j → j < ([1, 2] : List ℚ).length →
      is_better false
        ((run_validations false 1 [1, 2]).bestHistory.getD i (sentinel false))
        ((run_validations false 1 [1, 2]).bestHistory.getD j (sentinel false))
        = false)) :=
  ⟨le_refl 1, checkpoint_ledger_invariant false 1 [1, 2] (le_refl 1)⟩

end NM
